import Mathlib

/-!
Verification of the recurring-visit date generator (`generateVisitDates` in
`src/utils/visitDateGenerator`, the slot-based variant).

Modelling conventions (shallow embedding):

* A JavaScript `Date` is represented by its instant, measured in **minutes
  since 1970-01-01T00:00** (`Int`).  The source never uses sub-minute
  precision (`setHours(h, m, 0, 0)`), so minutes are exact.
* `parseISO` of a date-only string `YYYY-MM-DD` yields local midnight of that
  calendar day; we therefore take `startDate`/`endDate` as `CivilDate`
  (year/month/day) triples and convert with `toTimestamp`.
* Calendar arithmetic (`addDays`, `addWeeks`, `addMonths`, `startOfWeek`,
  `getDay`, month lengths) follows the proleptic Gregorian calendar, via the
  standard days-from-civil conversion; the spec treats the date library as a
  correct black box.
* A slot's `time` field is the string `"HH:MM"`; the source reads it only
  through `time.split(':').map(Number)`, so we represent it by the parsed
  pair `(hour, minute)`.
* `toISOString` is an injective formatting of an instant (library assumed
  correct), so the final `.map(toISOString).filter(dedup)` step is modelled
  as first-occurrence deduplication on the instants themselves.
* The `while (true)` loops are expressed with an explicit recursion budget
  (`fuelFor`); the break conditions are reached strictly below the budget in
  every situation the theorems consider, which is proved where it matters.
-/

namespace OneRehab

/-- One scheduled occurrence template within a period (source `TimeSlot`).
`hour`/`minute` are the parsed halves of the `"HH:MM"` string. -/
structure TimeSlot where
  hour : Nat
  minute : Nat
  dayOfWeek : Option Nat
  dayOfMonth : Option Nat
deriving DecidableEq, Repr

/-- Minute-of-day a slot's `time` denotes, i.e. `hours * 60 + minutes`. -/
def minuteOfDay (ts : TimeSlot) : Nat := ts.hour * 60 + ts.minute

/-- The `frequency` argument: one of `'daily' | 'weekly' | 'monthly'`. -/
inductive VisitFrequency
  | daily
  | weekly
  | monthly
deriving DecidableEq, Repr

/-- A calendar date, as parsed from a date-only ISO string. -/
structure CivilDate where
  year : Int
  month : Int
  day : Int
deriving DecidableEq, Repr

/-- Gregorian leap-year rule (as implemented by the host date library). -/
def isLeapYear (y : Int) : Bool :=
  (y % 4 = 0 ∧ ¬y % 100 = 0) ∨ y % 400 = 0

/-- Number of days of month `m` (1-based) in year `y`; the source obtains it
as `new Date(year, month + 1, 0).getDate()`. -/
def daysInMonth (y m : Int) : Int :=
  if m = 2 then (if isLeapYear y then 29 else 28)
  else if m = 4 ∨ m = 6 ∨ m = 9 ∨ m = 11 then 30 else 31

/-- Day number (days since 1970-01-01) of the civil date `y-m-d`; days are
counted on the proleptic Gregorian calendar.  The formula also normalises an
out-of-range `d` exactly the way `new Date(y, m, d)` does (linear in `d`). -/
def daysFromCivil (y m d : Int) : Int :=
  let yAdj := if m ≤ 2 then y - 1 else y
  let era := yAdj / 400
  let yoe := yAdj - era * 400
  let mp := (m + 9) % 12
  let doy := (153 * mp + 2) / 5 + d - 1
  let doe := yoe * 365 + yoe / 4 - yoe / 100 + doy
  era * 146097 + doe - 719468

/-- Instant (minutes since epoch) of local midnight of a civil date:
`parseISO` of a date-only string. -/
def toTimestamp (cd : CivilDate) : Int :=
  1440 * daysFromCivil cd.year cd.month cd.day

/-- Instant of `y-m-d` at wall-clock `h:mi`; used to state expected outputs. -/
def timestampAt (y m d : Int) (h mi : Nat) : Int :=
  1440 * daysFromCivil y m d + ((h : Int) * 60 + (mi : Int))

/-- JavaScript `date.setHours(h, mi, 0, 0)`: keep the calendar day of `t`,
replace the time of day (values ≥ 24h roll forward, as `Date` normalises). -/
def setTimeOfDay (t : Int) (h mi : Nat) : Int :=
  t / 1440 * 1440 + ((h : Int) * 60 + (mi : Int))

/-- `date-fns` `addMonths` on a civil date: advance the month, clamping the
day to the length of the target month. -/
def addMonthsCivil (cd : CivilDate) (n : Nat) : CivilDate :=
  let tm := cd.year * 12 + (cd.month - 1) + (n : Int)
  let y := tm / 12
  let m := tm % 12 + 1
  ⟨y, m, min cd.day (daysInMonth y m)⟩

/-- Day number of the Sunday starting the week that contains instant `t`:
`startOfWeek(t, weekStartsOn 0)`.  Day 0 (1970-01-01) was a Thursday, so the
day-of-week of day `z` is `(z + 4) % 7`. -/
def weekSunday (t : Int) : Int :=
  t / 1440 - (t / 1440 + 4) % 7

/-- Source line `const maxPeriods = occurrences || (end ? null : 100)`:
`occurrences = 0` (or absent) falls through to the `end`-dependent default. -/
def maxPeriodsOf (occurrences : Option Nat) (hasEnd : Bool) : Option Nat :=
  match occurrences with
  | some o => if o = 0 then (if hasEnd then none else some 100) else some o
  | none => if hasEnd then none else some 100

/-- The `while (true)` period loop shared by the three branches: before the
body of iteration `k`, the two break checks run; both checks and the body
read only the loop counter (in the source `periodCount` always equals the
`dayCount`/`weekOffset`/`monthOffset` counter, both starting at 0 and
incremented together).  `fuel` is the recursion budget. -/
def loopGen (brk : Nat → Bool) (body : Nat → List Int) : Nat → Nat → List Int
  | 0, _ => []
  | fuel + 1, k => if brk k then [] else body k ++ loopGen brk body fuel (k + 1)

/-- Daily-branch break test: `(end && isAfter(baseDate, end))` then
`(maxPeriods && periodCount >= maxPeriods)`, with `baseDate = addDays(start, k)`. -/
def dailyBreak (startTs : Int) (endTs : Option Int) (maxP : Option Nat) (k : Nat) : Bool :=
  (match endTs with
    | some e => decide (e < startTs + (k : Int) * 1440)
    | none => false) ||
  (match maxP with
    | some m => decide (m ≤ k)
    | none => false)

/-- Daily-branch body for day `k`: each slot's time applied to
`baseDate = addDays(start, k)` (no per-slot checks in this branch). -/
def dailyBody (startTs : Int) (timeSlots : List TimeSlot) (k : Nat) : List Int :=
  timeSlots.map (fun ts => setTimeOfDay (startTs + (k : Int) * 1440) ts.hour ts.minute)

/-- Weekly-branch break test: `(end && isAfter(addWeeks(start, w + 1), end))`
then the `maxPeriods` check. -/
def weeklyBreak (startTs : Int) (endTs : Option Int) (maxP : Option Nat) (w : Nat) : Bool :=
  (match endTs with
    | some e => decide (e < startTs + ((w : Int) + 1) * (7 * 1440))
    | none => false) ||
  (match maxP with
    | some m => decide (m ≤ w)
    | none => false)

/-- Weekly-branch slot loop for week `w` whose Sunday is day `sunday`: slots
without `dayOfWeek` are skipped (`continue`); a date before `startDate` in
week 0 is skipped (`continue`); a date after `endDate` stops this week's
emission (`break`); otherwise the slot's time is applied and the date kept. -/
def weeklySlots (startTs : Int) (endTs : Option Int) (w : Nat) (sunday : Int) :
    List TimeSlot → List Int
  | [] => []
  | ts :: rest =>
    match ts.dayOfWeek with
    | none => weeklySlots startTs endTs w sunday rest
    | some dw =>
      let visitTs := (sunday + (dw : Int)) * 1440
      if w = 0 ∧ visitTs < startTs then weeklySlots startTs endTs w sunday rest
      else if (match endTs with | some e => decide (e < visitTs) | none => false) then []
      else setTimeOfDay visitTs ts.hour ts.minute :: weeklySlots startTs endTs w sunday rest

/-- Weekly-branch body for week `w`: the week's Sunday is
`startOfWeek(addWeeks(start, w))` (`new Date(start)` when `w = 0`, which
equals `addWeeks(start, 0)`). -/
def weeklyBody (startTs : Int) (endTs : Option Int) (timeSlots : List TimeSlot)
    (w : Nat) : List Int :=
  weeklySlots startTs endTs w (weekSunday (startTs + (w : Int) * (7 * 1440))) timeSlots

/-- Monthly-branch break test: `(end && isAfter(addMonths(start, mo + 1), end))`
then the `maxPeriods` check. -/
def monthlyBreak (startDate : CivilDate) (endTs : Option Int) (maxP : Option Nat)
    (mo : Nat) : Bool :=
  (match endTs with
    | some e => decide (e < toTimestamp (addMonthsCivil startDate (mo + 1)))
    | none => false) ||
  (match maxP with
    | some m => decide (m ≤ mo)
    | none => false)

/-- Monthly-branch slot loop in month `cy-cm` with `dim` days: slots without
`dayOfMonth` are skipped; the day is clamped by `Math.min(dayOfMonth, dim)`;
a date before `startDate` is skipped; a date after `endDate` stops this
month's emission; otherwise the slot's time is applied and the date kept. -/
def monthlySlots (startTs : Int) (endTs : Option Int) (cy cm dim : Int) :
    List TimeSlot → List Int
  | [] => []
  | ts :: rest =>
    match ts.dayOfMonth with
    | none => monthlySlots startTs endTs cy cm dim rest
    | some dom =>
      let visitTs := 1440 * daysFromCivil cy cm (min (dom : Int) dim)
      if visitTs < startTs then monthlySlots startTs endTs cy cm dim rest
      else if (match endTs with | some e => decide (e < visitTs) | none => false) then []
      else setTimeOfDay visitTs ts.hour ts.minute :: monthlySlots startTs endTs cy cm dim rest

/-- Monthly-branch body for month offset `mo`:
`currentMonthStart = addMonths(start, mo)` supplies year and month, and
`daysInMonth` comes from `new Date(year, month + 1, 0).getDate()`. -/
def monthlyBody (startDate : CivilDate) (startTs : Int) (endTs : Option Int)
    (timeSlots : List TimeSlot) (mo : Nat) : List Int :=
  let cms := addMonthsCivil startDate mo
  monthlySlots startTs endTs cms.year cms.month (daysInMonth cms.year cms.month) timeSlots

/-- Recursion budget for the period loop.  With `maxPeriods = some m` the
loop breaks at iteration `m` at the latest; with `maxPeriods = none` the
source guarantees `end` is set and the date checks fire within the window. -/
def fuelFor (maxP : Option Nat) (startTs : Int) (endTs : Option Int) : Nat :=
  match maxP with
  | some m => m + 1
  | none =>
    match endTs with
    | some e => (e / 1440 - startTs / 1440).toNat + 2
    | none => 101

/-- Day number of the first day of linear month `t` (months counted as
`year * 12 + (month - 1)`); proof-side abbreviation for month-window
reasoning. -/
def monthStartDay (t : Int) : Int :=
  daysFromCivil (t / 12) (t % 12 + 1) 1

/-- First-occurrence deduplication, the semantics of
`.filter((date, index, self) => self.indexOf(date) === index)`; `seen`
accumulates the values already kept. -/
def dedupFirst (seen : List Int) : List Int → List Int
  | [] => []
  | x :: xs => if x ∈ seen then dedupFirst seen xs else x :: dedupFirst (x :: seen) xs

/-- The post-processing pipeline
`.sort((a, b) => a.getTime() - b.getTime()).map(toISOString).filter(dedup)`:
ascending sort of the instants, then first-occurrence deduplication (ISO
formatting being injective, string equality is instant equality).  Any
comparison sort returns the same ascending list of instants, so insertion
sort is used as the executable model of `Array.prototype.sort`. -/
def sortDedup (l : List Int) : List Int :=
  dedupFirst [] (List.insertionSort (fun a b => a ≤ b) l)

/-- The period loop of `generateVisitDates` before post-processing: the
accumulated `dates` array. -/
def generateVisitDatesRaw (frequency : VisitFrequency) (visitsPerPeriod : Nat)
    (startDate : CivilDate) (timeSlots : List TimeSlot)
    (endDate : Option CivilDate) (occurrences : Option Nat) : List Int :=
  let _ := visitsPerPeriod
  let startTs := toTimestamp startDate
  let endTs := endDate.map toTimestamp
  let maxP := maxPeriodsOf occurrences endTs.isSome
  let fuel := fuelFor maxP startTs endTs
  match frequency with
  | .daily => loopGen (dailyBreak startTs endTs maxP) (dailyBody startTs timeSlots) fuel 0
  | .weekly => loopGen (weeklyBreak startTs endTs maxP) (weeklyBody startTs endTs timeSlots) fuel 0
  | .monthly =>
    loopGen (monthlyBreak startDate endTs maxP)
      (monthlyBody startDate startTs endTs timeSlots) fuel 0

/-- `generateVisitDates(frequency, visitsPerPeriod, startDate, timeSlots,
endDate?, occurrences?)`: the generator's public result, as the ascending
deduplicated list of visit instants.  `visitsPerPeriod` is accepted but (as
in the source) never consulted. -/
def generateVisitDates (frequency : VisitFrequency) (visitsPerPeriod : Nat)
    (startDate : CivilDate) (timeSlots : List TimeSlot)
    (endDate : Option CivilDate) (occurrences : Option Nat) : List Int :=
  sortDedup (generateVisitDatesRaw frequency visitsPerPeriod startDate timeSlots
    endDate occurrences)

/-! Generic loop lemmas. -/

theorem loopGen_nil (brk : Nat → Bool) (body : Nat → List Int)
    (h : ∀ j, body j = []) : ∀ fuel k, loopGen brk body fuel k = [] := by
  intro fuel
  induction fuel with
  | zero => intro k; rfl
  | succ f ih =>
    intro k
    simp [loopGen, h, ih]

theorem mem_loopGen {brk : Nat → Bool} {body : Nat → List Int} :
    ∀ {fuel k : Nat} {x : Int}, x ∈ loopGen brk body fuel k → ∃ j, k ≤ j ∧ x ∈ body j := by
  intro fuel
  induction fuel with
  | zero => intro k x h; simp [loopGen] at h
  | succ f ih =>
    intro k x h
    simp only [loopGen] at h
    by_cases hb : brk k
    · simp [hb] at h
    · rw [if_neg hb] at h
      rcases List.mem_append.mp h with h | h
      · exact ⟨k, le_refl k, h⟩
      · obtain ⟨j, hj, hx⟩ := ih h
        exact ⟨j, by omega, hx⟩

theorem loopGen_eq (brk : Nat → Bool) (body : Nat → List Int) :
    ∀ (L fuel k : Nat), (∀ j, j < L → brk (k + j) = false) → brk (k + L) = true →
      L < fuel → loopGen brk body fuel k = (List.range' k L).flatMap body := by
  intro L
  induction L with
  | zero =>
    intro fuel k h0 hL hf
    match fuel, hf with
    | f + 1, _ =>
      have hk : brk k = true := by simpa using hL
      simp [loopGen, hk]
  | succ n ih =>
    intro fuel k h0 hL hf
    match fuel, hf with
    | f + 1, hf =>
      have hk : brk k = false := by simpa using h0 0 (by omega)
      have hrec : loopGen brk body f (k + 1) = (List.range' (k + 1) n).flatMap body := by
        refine ih f (k + 1) (fun j hj => ?_) ?_ (by omega)
        · have := h0 (j + 1) (by omega)
          simpa [Nat.add_assoc, Nat.add_comm 1 j] using this
        · have : k + (n + 1) = k + 1 + n := by omega
          rw [← this]; exact hL
      simp only [loopGen, hk, hrec, List.range'_succ, List.flatMap_cons]
      rw [if_neg (by simp)]

/-! Deduplication and sorting lemmas. -/

theorem mem_dedupFirst : ∀ {l seen : List Int} {x : Int},
    x ∈ dedupFirst seen l ↔ x ∈ l ∧ x ∉ seen := by
  intro l
  induction l with
  | nil => intro seen x; simp [dedupFirst]
  | cons y ys ih =>
    intro seen x
    by_cases hy : y ∈ seen
    · rw [dedupFirst, if_pos hy, ih]
      constructor
      · rintro ⟨h1, h2⟩
        exact ⟨List.mem_cons_of_mem y h1, h2⟩
      · rintro ⟨h1, h2⟩
        rcases List.mem_cons.mp h1 with h1 | h1
        · exact absurd (h1 ▸ hy) h2
        · exact ⟨h1, h2⟩
    · rw [dedupFirst, if_neg hy]
      constructor
      · intro hx
        rcases List.mem_cons.mp hx with hx | hx
        · exact ⟨hx ▸ List.mem_cons_self y ys, hx ▸ hy⟩
        · obtain ⟨h1, h2⟩ := ih.mp hx
          refine ⟨List.mem_cons_of_mem y h1, fun hc => h2 (List.mem_cons_of_mem y hc)⟩
      · rintro ⟨h1, h2⟩
        by_cases hxy : x = y
        · exact hxy ▸ List.mem_cons_self y (dedupFirst (y :: seen) ys)
        · rcases List.mem_cons.mp h1 with h1 | h1
          · exact absurd h1 hxy
          · refine List.mem_cons_of_mem y (ih.mpr ⟨h1, ?_⟩)
            intro hc
            rcases List.mem_cons.mp hc with hc | hc
            · exact hxy hc
            · exact h2 hc

theorem dedupFirst_sublist : ∀ (l seen : List Int), List.Sublist (dedupFirst seen l) l := by
  intro l
  induction l with
  | nil => intro seen; simp [dedupFirst]
  | cons y ys ih =>
    intro seen
    rw [dedupFirst]
    by_cases hy : y ∈ seen
    · rw [if_pos hy]
      exact List.Sublist.cons y (ih seen)
    · rw [if_neg hy]
      exact List.Sublist.cons₂ y (ih (y :: seen))

theorem nodup_dedupFirst : ∀ (l seen : List Int), (dedupFirst seen l).Nodup := by
  intro l
  induction l with
  | nil => intro seen; simp [dedupFirst]
  | cons y ys ih =>
    intro seen
    rw [dedupFirst]
    by_cases hy : y ∈ seen
    · rw [if_pos hy]; exact ih seen
    · rw [if_neg hy]
      refine List.nodup_cons.mpr ⟨fun hc => ?_, ih (y :: seen)⟩
      exact (mem_dedupFirst.mp hc).2 (List.mem_cons_self y seen)

theorem dedupFirst_eq_self : ∀ {l seen : List Int},
    l.Nodup → (∀ x ∈ l, x ∉ seen) → dedupFirst seen l = l := by
  intro l
  induction l with
  | nil => intro seen _ _; rfl
  | cons y ys ih =>
    intro seen hnd hdisj
    rw [dedupFirst, if_neg (hdisj y (List.mem_cons_self y ys))]
    congr 1
    refine ih (List.nodup_cons.mp hnd).2 (fun x hx => ?_)
    intro hc
    rcases List.mem_cons.mp hc with hc | hc
    · exact (List.nodup_cons.mp hnd).1 (hc ▸ hx)
    · exact hdisj x (List.mem_cons_of_mem y hx) hc

theorem sortDedup_pairwise (l : List Int) : (sortDedup l).Pairwise (· < ·) := by
  have hs : (List.insertionSort (fun a b => a ≤ b) l).Pairwise (fun a b => a ≤ b) :=
    List.sorted_insertionSort _ l
  have hle : (sortDedup l).Pairwise (fun a b => a ≤ b) :=
    hs.sublist (dedupFirst_sublist _ [])
  have hnd : (sortDedup l).Pairwise (fun a b : Int => a ≠ b) :=
    nodup_dedupFirst _ []
  exact (hle.and hnd).imp (fun h => lt_of_le_of_ne h.1 h.2)

theorem mem_sortDedup {x : Int} {l : List Int} : x ∈ sortDedup l ↔ x ∈ l := by
  unfold sortDedup
  rw [mem_dedupFirst]
  simp [(List.perm_insertionSort (fun a b => a ≤ b) l).mem_iff]

theorem length_sortDedup {l : List Int} (h : l.Nodup) : (sortDedup l).length = l.length := by
  unfold sortDedup
  have hp := List.perm_insertionSort (fun a b => a ≤ b) l
  rw [dedupFirst_eq_self (hp.nodup_iff.mpr h) (fun x _ hc => by simp at hc)]
  exact hp.length_eq

/-! Calendar lemmas. -/

theorem daysFromCivil_linear (y m d : Int) :
    daysFromCivil y m d = daysFromCivil y m 1 + (d - 1) := by
  simp only [daysFromCivil]
  split_ifs <;> omega

theorem daysInMonth_bounds (y m : Int) :
    28 ≤ daysInMonth y m ∧ daysInMonth y m ≤ 31 := by
  unfold daysInMonth
  split_ifs <;> omega

theorem daysFromCivil_month_step (q m : Int) (h1 : 1 ≤ m) (h2 : m ≤ 11) :
    daysFromCivil q (m + 1) 1 = daysFromCivil q m 1 + daysInMonth q m := by
  interval_cases m <;>
    simp only [daysFromCivil, daysInMonth, isLeapYear] <;>
    norm_num <;>
    (try split_ifs with hL) <;>
    simp_all [Bool.or_eq_true, Bool.and_eq_true, beq_iff_eq, bne_iff_ne] <;>
    omega

theorem daysFromCivil_year_wrap (q : Int) :
    daysFromCivil (q + 1) 1 1 = daysFromCivil q 12 1 + daysInMonth q 12 := by
  simp only [daysFromCivil, daysInMonth, isLeapYear]
  norm_num
  omega

theorem monthStartDay_succ (t : Int) :
    monthStartDay (t + 1) = monthStartDay t + daysInMonth (t / 12) (t % 12 + 1) := by
  have h0 : 0 ≤ t % 12 := Int.emod_nonneg t (by norm_num)
  have h1 : t % 12 < 12 := Int.emod_lt_of_pos t (by norm_num)
  by_cases hw : t % 12 = 11
  · have e1 : (t + 1) / 12 = t / 12 + 1 := by omega
    have e2 : (t + 1) % 12 = 0 := by omega
    unfold monthStartDay
    rw [e1, e2, hw]
    norm_num
    exact daysFromCivil_year_wrap (t / 12)
  · have e1 : (t + 1) / 12 = t / 12 := by omega
    have e2 : (t + 1) % 12 = t % 12 + 1 := by omega
    unfold monthStartDay
    rw [e1, e2]
    exact daysFromCivil_month_step (t / 12) (t % 12 + 1) (by omega) (by omega)

theorem monthStartDay_le_succ (t : Int) :
    monthStartDay t + 28 ≤ monthStartDay (t + 1) ∧
      monthStartDay (t + 1) ≤ monthStartDay t + 31 := by
  have := monthStartDay_succ t
  have := daysInMonth_bounds (t / 12) (t % 12 + 1)
  omega

theorem monthStartDay_add_le (t : Int) : ∀ n : Nat,
    monthStartDay t + 28 * n ≤ monthStartDay (t + n) := by
  intro n
  induction n with
  | zero => simp
  | succ n ih =>
    have h := (monthStartDay_le_succ (t + n)).1
    have e : t + ((n : Int) + 1) = t + n + 1 := by omega
    push_cast
    rw [e]
    push_cast at ih
    omega

theorem daysFromCivil_eq_monthStart (y m : Int) (h1 : 1 ≤ m) (h2 : m ≤ 12) :
    daysFromCivil y m 1 = monthStartDay (y * 12 + (m - 1)) := by
  unfold monthStartDay
  have e1 : (y * 12 + (m - 1)) / 12 = y := by omega
  have e2 : (y * 12 + (m - 1)) % 12 + 1 = m := by omega
  rw [e1, e2]

theorem toTimestamp_addMonthsCivil_ge (cd : CivilDate) (n : Nat)
    (hm1 : 1 ≤ cd.month) (hm2 : cd.month ≤ 12)
    (hd1 : 1 ≤ cd.day) (hd2 : cd.day ≤ 31) :
    toTimestamp cd + 1440 * (28 * n - 3) ≤ toTimestamp (addMonthsCivil cd n) := by
  obtain ⟨y, m, d⟩ := cd
  simp only [toTimestamp, addMonthsCivil] at *
  have hm' : 1 ≤ (y * 12 + (m - 1) + (n : Int)) % 12 + 1 ∧
      (y * 12 + (m - 1) + (n : Int)) % 12 + 1 ≤ 12 := by
    constructor <;> omega
  have hstart : daysFromCivil y m d = monthStartDay (y * 12 + (m - 1)) + (d - 1) := by
    rw [daysFromCivil_linear, daysFromCivil_eq_monthStart y m hm1 hm2]
  have htarget :
      daysFromCivil ((y * 12 + (m - 1) + (n : Int)) / 12)
          ((y * 12 + (m - 1) + (n : Int)) % 12 + 1)
          (min d (daysInMonth ((y * 12 + (m - 1) + (n : Int)) / 12)
            ((y * 12 + (m - 1) + (n : Int)) % 12 + 1))) =
        monthStartDay (y * 12 + (m - 1) + (n : Int)) +
          (min d (daysInMonth ((y * 12 + (m - 1) + (n : Int)) / 12)
            ((y * 12 + (m - 1) + (n : Int)) % 12 + 1)) - 1) := by
    rw [daysFromCivil_linear, daysFromCivil_eq_monthStart _ _ hm'.1 hm'.2]
    have e : (y * 12 + (m - 1) + (n : Int)) / 12 * 12 +
        ((y * 12 + (m - 1) + (n : Int)) % 12 + 1 - 1) = y * 12 + (m - 1) + (n : Int) := by
      omega
    rw [e]
  have hdim := daysInMonth_bounds ((y * 12 + (m - 1) + (n : Int)) / 12)
    ((y * 12 + (m - 1) + (n : Int)) % 12 + 1)
  have hadd := monthStartDay_add_le (y * 12 + (m - 1)) n
  have hmin : min d (daysInMonth ((y * 12 + (m - 1) + (n : Int)) / 12)
      ((y * 12 + (m - 1) + (n : Int)) % 12 + 1)) ≥ d - 3 := by
    rcases le_total d (daysInMonth ((y * 12 + (m - 1) + (n : Int)) / 12)
        ((y * 12 + (m - 1) + (n : Int)) % 12 + 1)) with h | h
    · rw [min_eq_left h]; omega
    · rw [min_eq_right h]; omega
  rw [hstart, htarget]
  omega

/-! Branch-level lemmas. -/

theorem dailyBody_eq (D : Int) (slots : List TimeSlot) (j : Nat) :
    dailyBody (1440 * D) slots j =
      slots.map (fun ts => (D + (j : Int)) * 1440 + (minuteOfDay ts : Int)) := by
  unfold dailyBody setTimeOfDay minuteOfDay
  refine List.map_congr_left (fun ts _ => ?_)
  push_cast
  omega

theorem length_flatMap_const {α : Type} (f : α → List Int) (n : Nat) :
    ∀ l : List α, (∀ a ∈ l, (f a).length = n) → (l.flatMap f).length = l.length * n := by
  intro l
  induction l with
  | nil => intro _; simp
  | cons a rest ih =>
    intro h
    rw [List.flatMap_cons, List.length_append, h a (List.mem_cons_self a rest),
      ih (fun b hb => h b (List.mem_cons_of_mem a hb))]
    simp [Nat.succ_mul, Nat.add_comm]

theorem flatMap_singleton_eq_map {α : Type} (f : α → Int) :
    ∀ l : List α, (l.flatMap (fun a => [f a])) = l.map f := by
  intro l
  induction l with
  | nil => rfl
  | cons a rest ih => rw [List.flatMap_cons, ih]; rfl

theorem nodup_daily_blocks (D : Int) (slots : List TimeSlot)
    (hwf : ∀ ts ∈ slots, minuteOfDay ts < 1440)
    (hnd : (slots.map minuteOfDay).Nodup) :
    ∀ js : List Nat, js.Nodup →
      (js.flatMap (fun j => slots.map
        (fun ts => (D + (j : Int)) * 1440 + (minuteOfDay ts : Int)))).Nodup := by
  intro js
  induction js with
  | nil => intro _; simp
  | cons j rest ih =>
    intro hjs
    rw [List.flatMap_cons]
    have hcast : (slots.map (fun ts => (minuteOfDay ts : Int))).Nodup := by
      have he : slots.map (fun ts => (minuteOfDay ts : Int)) =
          (slots.map minuteOfDay).map (fun x : Nat => (x : Int)) := by
        rw [List.map_map]; rfl
      rw [he]
      exact List.Nodup.map (fun a b h => by omega) hnd
    have hblock : (slots.map
        (fun ts => (D + (j : Int)) * 1440 + (minuteOfDay ts : Int))).Nodup := by
      have he : slots.map (fun ts => (D + (j : Int)) * 1440 + (minuteOfDay ts : Int)) =
          (slots.map (fun ts => (minuteOfDay ts : Int))).map
            (fun x => (D + (j : Int)) * 1440 + x) := by
        rw [List.map_map]; rfl
      rw [he]
      exact List.Nodup.map (fun a b h => by omega) hcast
    refine List.Nodup.append hblock (ih (List.nodup_cons.mp hjs).2) ?_
    intro x hx1 hx2
    obtain ⟨ts1, hts1, hv1⟩ := List.mem_map.mp hx1
    obtain ⟨j', hj', hx2'⟩ := List.mem_flatMap.mp hx2
    obtain ⟨ts2, hts2, hv2⟩ := List.mem_map.mp hx2'
    have hc1 := hwf ts1 hts1
    have hc2 := hwf ts2 hts2
    have hne : j ≠ j' := fun he => (List.nodup_cons.mp hjs).1 (he ▸ hj')
    exact hne (by omega)

theorem loopGen_daily_no_end (startTs : Int) (slots : List TimeSlot) (M fuel : Nat)
    (hf : M < fuel) :
    loopGen (dailyBreak startTs none (some M)) (dailyBody startTs slots) fuel 0 =
      (List.range M).flatMap (dailyBody startTs slots) := by
  rw [List.range_eq_range']
  refine loopGen_eq _ _ M fuel 0 (fun j hj => ?_) ?_ hf
  · have hj' : ¬ M ≤ 0 + j := by omega
    simp [dailyBreak, hj']
    omega
  · simp [dailyBreak]

theorem weeklySlots_nil_of_no_dayOfWeek (startTs : Int) (endTs : Option Int) (w : Nat)
    (sunday : Int) : ∀ slots : List TimeSlot, (∀ ts ∈ slots, ts.dayOfWeek = none) →
      weeklySlots startTs endTs w sunday slots = [] := by
  intro slots
  induction slots with
  | nil => intro _; rfl
  | cons ts rest ih =>
    intro h
    have h0 := h ts (List.mem_cons_self ts rest)
    rw [weeklySlots, h0]
    exact ih (fun b hb => h b (List.mem_cons_of_mem ts hb))

theorem monthlySlots_nil_of_no_dayOfMonth (startTs : Int) (endTs : Option Int)
    (cy cm dim : Int) : ∀ slots : List TimeSlot, (∀ ts ∈ slots, ts.dayOfMonth = none) →
      monthlySlots startTs endTs cy cm dim slots = [] := by
  intro slots
  induction slots with
  | nil => intro _; rfl
  | cons ts rest ih =>
    intro h
    have h0 := h ts (List.mem_cons_self ts rest)
    rw [monthlySlots, h0]
    exact ih (fun b hb => h b (List.mem_cons_of_mem ts hb))

theorem dailyBody_lb (D : Int) (slots : List TimeSlot) (j : Nat) (x : Int)
    (hx : x ∈ dailyBody (1440 * D) slots j) : 1440 * D ≤ x := by
  obtain ⟨ts, _, hv⟩ := List.mem_map.mp hx
  rw [setTimeOfDay] at hv
  omega

theorem weeklySlots_lb (D : Int) (endTs : Option Int) (w : Nat) (S : Int)
    (hw : 0 < w → D ≤ S) :
    ∀ (slots : List TimeSlot) (x : Int),
      x ∈ weeklySlots (1440 * D) endTs w S slots → 1440 * D ≤ x := by
  intro slots
  induction slots with
  | nil => intro x hx; simp [weeklySlots] at hx
  | cons ts rest ih =>
    intro x hx
    cases hdw : ts.dayOfWeek with
    | none =>
      rw [weeklySlots, hdw] at hx
      exact ih x hx
    | some dw =>
      rw [weeklySlots, hdw] at hx
      simp only [] at hx
      split_ifs at hx with h1 h2
      · exact ih x hx
      · simp at hx
      · rcases List.mem_cons.mp hx with hx | hx
        · subst hx
          rw [setTimeOfDay]
          rcases Nat.eq_zero_or_pos w with hw0 | hwpos
          · have hng : ¬ (S + (dw : Int)) * 1440 < 1440 * D := fun hc => h1 ⟨hw0, hc⟩
            omega
          · have := hw hwpos
            omega
        · exact ih x hx

theorem weeklyBody_lb (D : Int) (endTs : Option Int) (slots : List TimeSlot) (w : Nat)
    (x : Int) (hx : x ∈ weeklyBody (1440 * D) endTs slots w) : 1440 * D ≤ x := by
  rw [weeklyBody] at hx
  refine weeklySlots_lb D endTs w _ ?_ slots x hx
  intro hwpos
  rw [weekSunday]
  omega

theorem monthlySlots_lb (startTs : Int) (endTs : Option Int) (cy cm dim : Int) :
    ∀ (slots : List TimeSlot) (x : Int),
      x ∈ monthlySlots startTs endTs cy cm dim slots → startTs ≤ x := by
  intro slots
  induction slots with
  | nil => intro x hx; simp [monthlySlots] at hx
  | cons ts rest ih =>
    intro x hx
    cases hdm : ts.dayOfMonth with
    | none =>
      rw [monthlySlots, hdm] at hx
      exact ih x hx
    | some dom =>
      rw [monthlySlots, hdm] at hx
      simp only [] at hx
      split_ifs at hx with h1 h2
      · exact ih x hx
      · simp at hx
      · rcases List.mem_cons.mp hx with hx | hx
        · subst hx
          rw [setTimeOfDay]
          omega
        · exact ih x hx

theorem monthlyBody_lb (startDate : CivilDate) (startTs : Int) (endTs : Option Int)
    (slots : List TimeSlot) (mo : Nat) (x : Int)
    (hx : x ∈ monthlyBody startDate startTs endTs slots mo) : startTs ≤ x := by
  rw [monthlyBody] at hx
  exact monthlySlots_lb startTs endTs _ _ _ slots x hx

theorem flatMap_congr {α : Type} (f g : α → List Int) :
    ∀ l : List α, (∀ a ∈ l, f a = g a) → l.flatMap f = l.flatMap g := by
  intro l
  induction l with
  | nil => intro _; rfl
  | cons a rest ih =>
    intro h
    rw [List.flatMap_cons, List.flatMap_cons, h a (List.mem_cons_self a rest),
      ih (fun b hb => h b (List.mem_cons_of_mem a hb))]

theorem daily_single_slot_cap (vpp : Nat) (sd : CivilDate) (ts : TimeSlot)
    (occ : Option Nat) (hocc : occ = none ∨ occ = some 0) :
    (generateVisitDates .daily vpp sd [ts] none occ).length = 100 := by
  rw [generateVisitDates]
  have hraw : generateVisitDatesRaw .daily vpp sd [ts] none occ =
      (List.range 100).flatMap (dailyBody (toTimestamp sd) [ts]) := by
    rcases hocc with h | h <;> subst h <;>
      · simp only [generateVisitDatesRaw, Option.map_none', Option.isSome_none]
        exact loopGen_daily_no_end (toTimestamp sd) [ts] 100 101 (by omega)
  have hb : dailyBody (toTimestamp sd) [ts] = fun (j : Nat) =>
      [setTimeOfDay (toTimestamp sd + (j : Int) * 1440) ts.hour ts.minute] :=
    funext (fun j => rfl)
  have hnd : ((List.range 100).map (fun (j : Nat) =>
      setTimeOfDay (toTimestamp sd + (j : Int) * 1440) ts.hour ts.minute)).Nodup :=
    List.Nodup.map (fun a b h => by simp only [setTimeOfDay] at h; omega)
      (List.nodup_range 100)
  rw [hraw, hb, flatMap_singleton_eq_map, length_sortDedup hnd, List.length_map,
    List.length_range]

/-- C2: for weekly frequency, a slot date computed in week 0 that falls
before `startDate` is silently dropped (not shifted forward) and week 0
still counts toward `occurrences`: with one Monday 09:00 slot, start
2024-01-10 (a Wednesday) and `occurrences = 1`, the generator returns the
empty sequence; week 0 itself emits nothing, and the dropped Monday
(2024-01-08 09:00) indeed precedes the start. -/
theorem weekly_first_week_before_start_drop :
    generateVisitDates .weekly 1 ⟨2024, 1, 10⟩ [⟨9, 0, some 1, none⟩] none (some 1) = [] ∧
    weeklyBody (toTimestamp ⟨2024, 1, 10⟩) none [⟨9, 0, some 1, none⟩] 0 = [] ∧
    timestampAt 2024 1 8 9 0 < toTimestamp ⟨2024, 1, 10⟩ :=
  ⟨by decide, by decide, by decide⟩

/-- C5: with neither `endDate` nor `occurrences`, generation stops at the
100-period safety cap: `maxPeriods` defaults to 100, and open-ended daily
input with a single slot yields exactly 100 visits for every start date. -/
theorem open_ended_caps_at_100 :
    maxPeriodsOf none false = some 100 ∧
    ∀ (vpp : Nat) (sd : CivilDate) (ts : TimeSlot),
      (generateVisitDates .daily vpp sd [ts] none none).length = 100 :=
  ⟨rfl, fun vpp sd ts => daily_single_slot_cap vpp sd ts none (Or.inl rfl)⟩

/-- C6: for every well-typed input the output is strictly increasing by
timestamp (so it is sorted ascending with no two elements denoting the same
instant), and an instant is in the output iff some period emitted it (exact
duplicates collapse to one element rather than disappearing). -/
theorem output_strictly_increasing (frequency : VisitFrequency) (vpp : Nat)
    (sd : CivilDate) (slots : List TimeSlot) (endD : Option CivilDate)
    (occ : Option Nat) :
    (generateVisitDates frequency vpp sd slots endD occ).Pairwise (· < ·) ∧
    ∀ x : Int, x ∈ generateVisitDates frequency vpp sd slots endD occ ↔
      x ∈ generateVisitDatesRaw frequency vpp sd slots endD occ :=
  ⟨sortDedup_pairwise _, fun _ => mem_sortDedup⟩

/-- C7: a slot missing the field its frequency requires is silently skipped:
if every slot lacks `dayOfWeek` (weekly) or `dayOfMonth` (monthly), the
generator returns the empty sequence — never an error — for all start/end
dates and occurrence counts. -/
theorem missing_day_field_slots_skipped :
    (∀ (vpp : Nat) (sd : CivilDate) (slots : List TimeSlot)
       (endD : Option CivilDate) (occ : Option Nat),
       (∀ ts ∈ slots, ts.dayOfWeek = none) →
       generateVisitDates .weekly vpp sd slots endD occ = []) ∧
    (∀ (vpp : Nat) (sd : CivilDate) (slots : List TimeSlot)
       (endD : Option CivilDate) (occ : Option Nat),
       (∀ ts ∈ slots, ts.dayOfMonth = none) →
       generateVisitDates .monthly vpp sd slots endD occ = []) := by
  constructor
  · intro vpp sd slots endD occ h
    rw [generateVisitDates]
    have hraw : generateVisitDatesRaw .weekly vpp sd slots endD occ = [] := by
      simp only [generateVisitDatesRaw]
      exact loopGen_nil _ _
        (fun j => by
          rw [weeklyBody]
          exact weeklySlots_nil_of_no_dayOfWeek _ _ _ _ slots h) _ 0
    rw [hraw]
    rfl
  · intro vpp sd slots endD occ h
    rw [generateVisitDates]
    have hraw : generateVisitDatesRaw .monthly vpp sd slots endD occ = [] := by
      simp only [generateVisitDatesRaw]
      exact loopGen_nil _ _
        (fun j => by
          rw [monthlyBody]
          exact monthlySlots_nil_of_no_dayOfMonth _ _ _ _ _ slots h) _ 0
    rw [hraw]
    rfl

/-- Witness for C7: the spec's unproductive-input example — weekly frequency
with a single slot that has a time but no `dayOfWeek` returns the empty
sequence. -/
theorem missing_day_field_slots_skipped_witness :
    generateVisitDates .weekly 1 ⟨2024, 1, 10⟩ [⟨9, 0, none, none⟩] none none = [] :=
  missing_day_field_slots_skipped.1 1 ⟨2024, 1, 10⟩ [⟨9, 0, none, none⟩] none none
    (by intro ts hts; simp at hts; subst hts; rfl)

/-- C9: `occurrences = 0` behaves exactly like an absent `occurrences`
(JavaScript `0` is falsy in `occurrences || ...`): `maxPeriods` is computed
identically, and open-ended daily input with one slot and `occurrences = 0`
still yields the 100-period cap's 100 visits, not an empty sequence. -/
theorem zero_occurrences_treated_as_absent :
    (∀ b : Bool, maxPeriodsOf (some 0) b = maxPeriodsOf none b) ∧
    ∀ (vpp : Nat) (sd : CivilDate) (ts : TimeSlot),
      (generateVisitDates .daily vpp sd [ts] none (some 0)).length = 100 :=
  ⟨fun b => by cases b <;> rfl,
   fun vpp sd ts => daily_single_slot_cap vpp sd ts (some 0) (Or.inr rfl)⟩

/-- C10: no output timestamp falls before `startDate`: every element of the
output is at or after local midnight of `startDate`, for every frequency and
input — the daily branch starts at `startDate`, the weekly and monthly
branches drop earlier candidates in period 0, and later periods lie wholly
after the start day. -/
theorem no_visit_before_startDate (frequency : VisitFrequency) (vpp : Nat)
    (sd : CivilDate) (slots : List TimeSlot) (endD : Option CivilDate)
    (occ : Option Nat) (x : Int)
    (hx : x ∈ generateVisitDates frequency vpp sd slots endD occ) :
    toTimestamp sd ≤ x := by
  rw [generateVisitDates, mem_sortDedup] at hx
  cases frequency with
  | daily =>
    simp only [generateVisitDatesRaw] at hx
    obtain ⟨j, _, hj⟩ := mem_loopGen hx
    rw [toTimestamp] at hj ⊢
    exact dailyBody_lb _ slots j x hj
  | weekly =>
    simp only [generateVisitDatesRaw] at hx
    obtain ⟨j, _, hj⟩ := mem_loopGen hx
    rw [toTimestamp] at hj ⊢
    exact weeklyBody_lb _ _ slots j x hj
  | monthly =>
    simp only [generateVisitDatesRaw] at hx
    obtain ⟨j, _, hj⟩ := mem_loopGen hx
    exact monthlyBody_lb sd _ _ slots j x hj

/-- Witness for C10 at the daily example: the first generated visit of the
2024-01-01 daily schedule is not before its start date. -/
theorem no_visit_before_startDate_witness :
    toTimestamp ⟨2024, 1, 1⟩ ≤ timestampAt 2024 1 1 9 0 :=
  no_visit_before_startDate .daily 2 ⟨2024, 1, 1⟩
    [⟨9, 0, none, none⟩, ⟨12, 0, none, none⟩] none (some 2)
    (timestampAt 2024 1 1 9 0) (by decide)

/-- C3: `occurrences` counts periods, not visits: the spec's daily example
(two slots, two occurrences) yields exactly its four listed timestamps, and
in general daily input with `n` pairwise-distinct well-formed slot times and
`occurrences = k > 0` yields exactly `k * n` visits. -/
theorem daily_occurrences_counts_periods :
    (generateVisitDates .daily 2 ⟨2024, 1, 1⟩
        [⟨9, 0, none, none⟩, ⟨12, 0, none, none⟩] none (some 2) =
      [timestampAt 2024 1 1 9 0, timestampAt 2024 1 1 12 0,
       timestampAt 2024 1 2 9 0, timestampAt 2024 1 2 12 0]) ∧
    ∀ (vpp k : Nat) (sd : CivilDate) (slots : List TimeSlot),
      k ≠ 0 → (∀ ts ∈ slots, minuteOfDay ts < 1440) →
      (slots.map minuteOfDay).Nodup →
      (generateVisitDates .daily vpp sd slots none (some k)).length =
        k * slots.length := by
  constructor
  · decide
  · intro vpp k sd slots hk hwf hnd
    rw [generateVisitDates]
    have hmp : maxPeriodsOf (some k) false = some k := by
      simp [maxPeriodsOf, hk]
    have hraw : generateVisitDatesRaw .daily vpp sd slots none (some k) =
        (List.range k).flatMap (dailyBody (toTimestamp sd) slots) := by
      simp only [generateVisitDatesRaw, Option.map_none', Option.isSome_none, hmp]
      exact loopGen_daily_no_end (toTimestamp sd) slots k (k + 1) (by omega)
    rw [hraw, toTimestamp]
    rw [flatMap_congr _ _ (List.range k)
      (fun j _ => dailyBody_eq (daysFromCivil sd.year sd.month sd.day) slots j)]
    have hnodup := nodup_daily_blocks (daysFromCivil sd.year sd.month sd.day) slots
      hwf hnd (List.range k) (List.nodup_range k)
    rw [length_sortDedup hnodup,
      length_flatMap_const _ slots.length (List.range k) (fun j _ => by simp),
      List.length_range]

/-- Witness for C3's general count at a fresh input: three distinct
well-formed daily slots and four occurrences give exactly twelve visits. -/
theorem daily_occurrences_counts_periods_witness :
    (generateVisitDates .daily 3 ⟨2024, 3, 5⟩
        [⟨8, 0, none, none⟩, ⟨14, 30, none, none⟩, ⟨20, 15, none, none⟩]
        none (some 4)).length = 4 * 3 :=
  daily_occurrences_counts_periods.2 3 4 ⟨2024, 3, 5⟩
    [⟨8, 0, none, none⟩, ⟨14, 30, none, none⟩, ⟨20, 15, none, none⟩]
    (by decide) (by decide) (by decide)

/-- C4: a monthly slot's `dayOfMonth` exceeding the month's length is
clamped down to the month's last day — never rolled into the next month and
never skipped: the spec's example returns Jan 31 and Feb 29 of leap-year
2024, and in general the clamped day equals the month's last day and its
date stays inside the month (at or after the month's first day, strictly
before the next month's first day). -/
theorem monthly_dayOfMonth_clamped :
    (generateVisitDates .monthly 1 ⟨2024, 1, 1⟩ [⟨10, 0, none, some 31⟩] none (some 2) =
      [timestampAt 2024 1 31 10 0, timestampAt 2024 2 29 10 0]) ∧
    ∀ (y m : Int) (dom : Nat), 1 ≤ m → m ≤ 12 → daysInMonth y m < (dom : Int) →
      min (dom : Int) (daysInMonth y m) = daysInMonth y m ∧
      daysFromCivil y m 1 ≤ daysFromCivil y m (min (dom : Int) (daysInMonth y m)) ∧
      daysFromCivil y m (min (dom : Int) (daysInMonth y m)) <
        monthStartDay (y * 12 + (m - 1) + 1) := by
  constructor
  · decide
  · intro y m dom h1 h2 h3
    have hmin : min (dom : Int) (daysInMonth y m) = daysInMonth y m :=
      min_eq_right (le_of_lt h3)
    have hdim := daysInMonth_bounds y m
    have hsucc := monthStartDay_succ (y * 12 + (m - 1))
    have he1 : (y * 12 + (m - 1)) / 12 = y := by omega
    have he2 : (y * 12 + (m - 1)) % 12 + 1 = m := by omega
    rw [he1, he2] at hsucc
    have hms := daysFromCivil_eq_monthStart y m h1 h2
    refine ⟨hmin, ?_, ?_⟩
    · rw [hmin, daysFromCivil_linear y m (daysInMonth y m)]
      omega
    · rw [hmin, daysFromCivil_linear y m (daysInMonth y m)]
      omega

/-- Witness for C4's general clamp bound: day 31 in February 2024 clamps to
29 and stays within February. -/
theorem monthly_dayOfMonth_clamped_witness :
    min ((31 : Nat) : Int) (daysInMonth 2024 2) = daysInMonth 2024 2 ∧
    daysFromCivil 2024 2 1 ≤
      daysFromCivil 2024 2 (min ((31 : Nat) : Int) (daysInMonth 2024 2)) ∧
    daysFromCivil 2024 2 (min ((31 : Nat) : Int) (daysInMonth 2024 2)) <
      monthStartDay (2024 * 12 + (2 - 1) + 1) :=
  monthly_dayOfMonth_clamped.2 2024 2 31 (by decide) (by decide) (by decide)

/-- Counterexample to C1 as stated: weekly schedule, start Wednesday
2024-01-10, end Friday 2024-01-12, one Thursday 09:00 slot.  Period 0's week
range intersects the window and its slot date (Thursday 2024-01-11 09:00,
shown by evaluating the period-0 body) lies within `[startDate, endDate]`,
yet the generator returns the empty sequence: the loop already breaks at
period 0 because `addWeeks(start, 1)` exceeds `endDate`. -/
theorem weekly_endDate_skips_intersecting_period :
    generateVisitDates .weekly 1 ⟨2024, 1, 10⟩ [⟨9, 0, some 4, none⟩]
        (some ⟨2024, 1, 12⟩) none = [] ∧
    weeklySlots (toTimestamp ⟨2024, 1, 10⟩) (some (toTimestamp ⟨2024, 1, 12⟩)) 0
        (weekSunday (toTimestamp ⟨2024, 1, 10⟩)) [⟨9, 0, some 4, none⟩] =
      [timestampAt 2024 1 11 9 0] ∧
    toTimestamp ⟨2024, 1, 10⟩ ≤ timestampAt 2024 1 11 9 0 ∧
    timestampAt 2024 1 11 9 0 ≤ toTimestamp ⟨2024, 1, 12⟩ :=
  ⟨by decide, by decide, by decide, by decide⟩

/-- C1 amended: with `endDate` set (and no `occurrences`), the weekly and
monthly period loops stop exactly at the first period `K` whose
one-period-advanced anchor (`addWeeks(start, K+1)`, resp.
`addMonths(start, K+1)`) is after `endDate`; periods `0 ≤ k < K` are
processed, each emitting per the per-slot rules — so a final period whose
range still intersects `[startDate, endDate]` is skipped whenever `endDate`
is less than one full period past the anchor. -/
theorem endDate_break_at_anchor_advance :
    (∀ (vpp : Nat) (sd eD : CivilDate) (slots : List TimeSlot) (K : Nat),
       (∀ j, j < K →
         weeklyBreak (toTimestamp sd) (some (toTimestamp eD)) none j = false) →
       weeklyBreak (toTimestamp sd) (some (toTimestamp eD)) none K = true →
       generateVisitDates .weekly vpp sd slots (some eD) none =
         sortDedup ((List.range K).flatMap
           (weeklyBody (toTimestamp sd) (some (toTimestamp eD)) slots))) ∧
    (∀ (vpp : Nat) (sd eD : CivilDate) (slots : List TimeSlot) (K : Nat),
       1 ≤ sd.month → sd.month ≤ 12 → 1 ≤ sd.day → sd.day ≤ 31 →
       (∀ j, j < K →
         monthlyBreak sd (some (toTimestamp eD)) none j = false) →
       monthlyBreak sd (some (toTimestamp eD)) none K = true →
       generateVisitDates .monthly vpp sd slots (some eD) none =
         sortDedup ((List.range K).flatMap
           (monthlyBody sd (toTimestamp sd) (some (toTimestamp eD)) slots))) := by
  constructor
  · intro vpp sd eD slots K h0 hK
    rw [generateVisitDates]
    congr 1
    simp only [generateVisitDatesRaw, Option.map_some', Option.isSome_some]
    rw [List.range_eq_range']
    refine loopGen_eq _ _ K _ 0 (fun j hj => ?_) ?_ ?_
    · simpa using h0 j hj
    · simpa using hK
    · show K < ((toTimestamp eD) / 1440 - (toTimestamp sd) / 1440).toNat + 2
      rcases Nat.eq_zero_or_pos K with hz | hpos
      · omega
      · have hlast := h0 (K - 1) (by omega)
        simp only [weeklyBreak, Bool.or_false, decide_eq_false_iff_not] at hlast
        simp only [toTimestamp] at hlast ⊢
        omega
  · intro vpp sd eD slots K hm1 hm2 hd1 hd2 h0 hK
    rw [generateVisitDates]
    congr 1
    simp only [generateVisitDatesRaw, Option.map_some', Option.isSome_some]
    rw [List.range_eq_range']
    refine loopGen_eq _ _ K _ 0 (fun j hj => ?_) ?_ ?_
    · simpa using h0 j hj
    · simpa using hK
    · show K < ((toTimestamp eD) / 1440 - (toTimestamp sd) / 1440).toNat + 2
      rcases Nat.eq_zero_or_pos K with hz | hpos
      · omega
      · have hlast := h0 (K - 1) (by omega)
        simp only [monthlyBreak, Bool.or_false, decide_eq_false_iff_not] at hlast
        have hge := toTimestamp_addMonthsCivil_ge sd (K - 1 + 1) hm1 hm2 hd1 hd2
        simp only [toTimestamp] at hlast hge ⊢
        omega

/-- Witness for the amended C1, weekly half: start Monday 2024-01-01, end
2024-01-20; the first period whose advanced anchor passes the end is K = 2,
and the output is exactly weeks 0 and 1. -/
theorem endDate_break_at_anchor_advance_witness :
    generateVisitDates .weekly 1 ⟨2024, 1, 1⟩ [⟨9, 0, some 1, none⟩]
        (some ⟨2024, 1, 20⟩) none =
      sortDedup ((List.range 2).flatMap
        (weeklyBody (toTimestamp ⟨2024, 1, 1⟩) (some (toTimestamp ⟨2024, 1, 20⟩))
          [⟨9, 0, some 1, none⟩])) :=
  endDate_break_at_anchor_advance.1 1 ⟨2024, 1, 1⟩ ⟨2024, 1, 20⟩
    [⟨9, 0, some 1, none⟩] 2 (by decide) (by decide)

/-- C8: when `endDate` and `occurrences` are both supplied, both bounds stay
active and the loop stops at whichever is hit first: `occurrences ≠ 0`
becomes `maxPeriods`, the daily loop runs exactly
`min occurrences (days from start through end)` periods, and in the weekly
and monthly branches the end-date check likewise still cuts generation
(first example of each pair) while `occurrences` cuts it when smaller
(second example). -/
theorem both_bounds_stop_at_first :
    (∀ (o : Nat) (b : Bool), o ≠ 0 → maxPeriodsOf (some o) b = some o) ∧
    (∀ (vpp o : Nat) (sd eD : CivilDate) (slots : List TimeSlot), o ≠ 0 →
       generateVisitDates .daily vpp sd slots (some eD) (some o) =
         sortDedup ((List.range (min o
             ((daysFromCivil eD.year eD.month eD.day -
               daysFromCivil sd.year sd.month sd.day + 1).toNat))).flatMap
           (dailyBody (toTimestamp sd) slots))) ∧
    (generateVisitDates .weekly 1 ⟨2024, 1, 1⟩ [⟨9, 0, some 1, none⟩]
        (some ⟨2024, 1, 20⟩) (some 10) =
      [timestampAt 2024 1 1 9 0, timestampAt 2024 1 8 9 0]) ∧
    (generateVisitDates .weekly 1 ⟨2024, 1, 1⟩ [⟨9, 0, some 1, none⟩]
        (some ⟨2024, 3, 31⟩) (some 1) =
      [timestampAt 2024 1 1 9 0]) ∧
    (generateVisitDates .monthly 1 ⟨2024, 1, 1⟩ [⟨10, 0, none, some 15⟩]
        (some ⟨2024, 2, 10⟩) (some 10) =
      [timestampAt 2024 1 15 10 0]) ∧
    (generateVisitDates .monthly 1 ⟨2024, 1, 1⟩ [⟨10, 0, none, some 15⟩]
        (some ⟨2024, 12, 31⟩) (some 2) =
      [timestampAt 2024 1 15 10 0, timestampAt 2024 2 15 10 0]) := by
  refine ⟨?_, ?_, by decide, by decide, by decide, by decide⟩
  · intro o b ho
    simp [maxPeriodsOf, ho]
  · intro vpp o sd eD slots ho
    rw [generateVisitDates]
    congr 1
    have hmp : maxPeriodsOf (some o) true = some o := by
      simp [maxPeriodsOf, ho]
    simp only [generateVisitDatesRaw, Option.map_some', Option.isSome_some, hmp]
    rw [List.range_eq_range']
    have hEmin := Nat.min_le_left o
      ((daysFromCivil eD.year eD.month eD.day -
        daysFromCivil sd.year sd.month sd.day + 1).toNat)
    refine loopGen_eq _ _ _ _ 0 (fun j hj => ?_) ?_ ?_
    · have hj1 : j < o := lt_of_lt_of_le hj hEmin
      have hj2 : j <
          ((daysFromCivil eD.year eD.month eD.day -
            daysFromCivil sd.year sd.month sd.day + 1).toNat) :=
        lt_of_lt_of_le hj (Nat.min_le_right _ _)
      simp only [dailyBreak, Bool.or_eq_false_iff, decide_eq_false_iff_not]
      constructor
      · simp only [toTimestamp]
        omega
      · omega
    · simp only [dailyBreak, Bool.or_eq_true, decide_eq_true_eq]
      rcases le_total o ((daysFromCivil eD.year eD.month eD.day -
          daysFromCivil sd.year sd.month sd.day + 1).toNat) with h | h
      · right
        rw [min_eq_left h]
        omega
      · left
        rw [min_eq_right h]
        simp only [toTimestamp]
        omega
    · show min o _ < o + 1
      omega

/-- Witness for C8's general daily half: start 2024-01-01, end 2024-01-03,
ten occurrences — the end date wins and the loop covers exactly
`min 10 3 = 3` days. -/
theorem both_bounds_stop_at_first_witness :
    generateVisitDates .daily 1 ⟨2024, 1, 1⟩ [⟨9, 0, none, none⟩]
        (some ⟨2024, 1, 3⟩) (some 10) =
      sortDedup ((List.range (min 10
          ((daysFromCivil 2024 1 3 - daysFromCivil 2024 1 1 + 1).toNat))).flatMap
        (dailyBody (toTimestamp ⟨2024, 1, 1⟩) [⟨9, 0, none, none⟩])) :=
  both_bounds_stop_at_first.2.1 1 10 ⟨2024, 1, 1⟩ ⟨2024, 1, 3⟩
    [⟨9, 0, none, none⟩] (by decide)

end OneRehab
